import Mathlib

/-!
Verification of the CHOPPER chopping pipeline (chopper.py, chuffle.py).

The embedding is record-level: a file is a `List String` of records, each
record being the string Python's line iteration yields (terminator
included).  Pure content transformations of each stage are modelled as
Lean functions translated from the source; the pipeline orchestrator
(`main`) is modelled as explicit state threading of the file set, the
`is_original` ownership flag, and the lists of removed / overwritten /
renamed paths.  Randomness (`random.shuffle`) is modelled by passing the
chosen index permutation explicitly, as the source applies it to a list.
All definitions are structural recursion so that concrete runs reduce in
the kernel.
-/

namespace Chopper

/-! ## Small helpers (kernel-computable replacements for String library loops) -/

/-- Characters of the path after the last slash (`pathlib` name component). -/
def afterSlash (cs : List Char) : List Char :=
  cs.foldl (fun acc ch => if ch = '/' then [] else acc ++ [ch]) []

/-- Characters of a file name with its last extension removed; a name with no
dot, or whose only dot is the leading character, is returned whole
(`pathlib.Path.stem`). -/
def stripExt (cs : List Char) : List Char :=
  match cs.reverse.dropWhile (fun ch => ch != '.') with
  | [] => cs
  | [_] => cs
  | _ :: restRev => restRev.reverse

/-- Model of `pathlib.Path.stem`: final path component without its last suffix. -/
def stem (p : String) : String :=
  String.mk (stripExt (afterSlash p.data))

/-- Join a list of strings with a separator (model of Python str.join). -/
def joinWithStr (sep : String) : List String → String
  | [] => ""
  | [a] => a
  | a :: b :: rest => a ++ sep ++ joinWithStr sep (b :: rest)

/-! ## `shuffle_file` (chopper.py lines 209-246): full in-memory buffering.

`random.shuffle(data)` rearranges `data` in place; we model the chosen
rearrangement by an explicit index list `σ` (Fisher-Yates produces a
permutation of `range (data.length)`), applied positionally. -/

/-- Apply an index selection to a list: element `i` of the result is
`xs[σ[i]]` (the in-place result of `random.shuffle` for the permutation `σ`). -/
def applyIdx (σ : List Nat) (xs : List String) (d : String) : List String :=
  σ.map (fun i => xs.getD i d)

/-- Records written by one iteration of `shuffle_file`: the header record
followed by the shuffled data records (`fout.write(headers);
fout.writelines(data)`).  An empty file would raise `IndexError` at
`rows[0]` in the source; the model returns `[]` there. -/
def shuffleIteration (records : List String) (σ : List Nat) : List String :=
  match records with
  | [] => []
  | h :: data => h :: applyIdx σ data ""

/-- Contents of the `shuffles` output files produced by `shuffle_file`
(one per loop iteration), where `perm i n` is the permutation of
`List.range n` that iteration `i`'s `random.shuffle` realizes. -/
def shuffleOutputs (records : List String) (shuffles : Nat)
    (perm : Nat → Nat → List Nat) : List (List String) :=
  (List.range shuffles).map
    (fun i => shuffleIteration records (perm i (records.length - 1)))

/-! ## `split_by_rows` (chopper.py lines 340-384): fixed-size split.

The loop opens a new output whenever `(i - 1) % rows == 0`, i.e. the data
records are taken in consecutive groups of `rows`.  `chunkAux` carries the
remaining capacity of the current output file; Python raises
`ZeroDivisionError` for `rows == 0` and `main` never passes 0, so
theorems assume `0 < rows`. -/

def chunkAux (n : Nat) : List String → Nat → List String → List (List String)
  | [], _, cur => [cur]
  | x :: rest, 0, cur => cur :: chunkAux n rest (n - 1) [x]
  | x :: rest, c + 1, cur => chunkAux n rest c (cur ++ [x])

/-- Consecutive groups of `n` data records (the data rows of each output
file of `split_by_rows`). -/
def chunkBy (n : Nat) (data : List String) : List (List String) :=
  match data with
  | [] => []
  | x :: rest => chunkAux n rest (n - 1) [x]

/-- Contents of the output files of `split_by_rows`: no data rows means no
output file is ever opened; otherwise each group of `rows` data records is
prefixed with the header record. -/
def split_by_rows_content (records : List String) (rows : Nat) : List (List String) :=
  match records with
  | [] => []
  | h :: data => (chunkBy rows data).map (fun c => h :: c)

/-! ## `split_by_equal` (chopper.py lines 306-337): equal-count split.

All `equal` outputs are opened up front, the header is written to each,
and `next(fout_cycle)` is advanced once per data record, so data record
`j` (0-indexed) lands in output `j % equal`.  `strideAux k c data` is the
list of records the output that is `c` advances away from receiving the
current record will get: it keeps positions `c, c + k, c + 2k, ...`. -/

def strideAux (k : Nat) : List String → Nat → List String
  | [], _ => []
  | x :: rest, 0 => x :: strideAux k rest (k - 1)
  | _ :: rest, c + 1 => strideAux k rest c

/-- Contents of the `k` output files of `split_by_equal`: output `i` gets
the header plus the data records at positions congruent to `i` mod `k`.
An input with no records at all yields `k` empty files. -/
def split_by_equal_content (records : List String) (k : Nat) : List (List String) :=
  match records with
  | [] => List.replicate k []
  | h :: data => (List.range k).map (fun i => h :: strideAux k data i)

/-! ## csv layer (model of Python's `csv` module, default dialect)

`split_by_columns` reads through `csv.DictReader` and writes through
`csv.DictWriter` (delimiter from the CLI, quotechar `"`, doublequote,
QUOTE_MINIMAL, terminator CRLF).  The model covers single-line records,
which is what the line-oriented stages of this program produce. -/

inductive CsvState where
  | fieldStart
  | inField
  | inQuoted
  | quoteInQuoted

def csvParseAux (delim : Char) :
    List Char → CsvState → List Char → List (List Char) → List (List Char)
  | [], _, cur, acc => acc ++ [cur]
  | c :: rest, CsvState.fieldStart, cur, acc =>
    if c = '"' then csvParseAux delim rest CsvState.inQuoted cur acc
    else if c = delim then csvParseAux delim rest CsvState.fieldStart [] (acc ++ [cur])
    else csvParseAux delim rest CsvState.inField (cur ++ [c]) acc
  | c :: rest, CsvState.inField, cur, acc =>
    if c = delim then csvParseAux delim rest CsvState.fieldStart [] (acc ++ [cur])
    else csvParseAux delim rest CsvState.inField (cur ++ [c]) acc
  | c :: rest, CsvState.inQuoted, cur, acc =>
    if c = '"' then csvParseAux delim rest CsvState.quoteInQuoted cur acc
    else csvParseAux delim rest CsvState.inQuoted (cur ++ [c]) acc
  | c :: rest, CsvState.quoteInQuoted, cur, acc =>
    if c = '"' then csvParseAux delim rest CsvState.inQuoted (cur ++ ['"']) acc
    else if c = delim then csvParseAux delim rest CsvState.fieldStart [] (acc ++ [cur])
    else csvParseAux delim rest CsvState.inField (cur ++ [c]) acc

/-- Parse one terminator-free record into its fields (an empty line is the
empty row, as in Python's csv reader). -/
def csvParseLine (delim : Char) (s : String) : List String :=
  match s.data with
  | [] => []
  | c :: rest =>
    (csvParseAux delim (c :: rest) CsvState.fieldStart [] []).map (fun cs => String.mk cs)

/-- QUOTE_MINIMAL: a field is quoted when it contains the delimiter, the
quote character, or a line break. -/
def needsQuote (delim : Char) (f : List Char) : Bool :=
  f.any (fun c => c == delim || c == '"' || c == '\n' || c == '\r')

def escapeQuotes : List Char → List Char
  | [] => []
  | c :: rest =>
    if c = '"' then '"' :: '"' :: escapeQuotes rest else c :: escapeQuotes rest

def csvFieldChars (delim : Char) (f : String) : List Char :=
  if needsQuote delim f.data then '"' :: (escapeQuotes f.data ++ ['"']) else f.data

def joinWithChar (d : Char) : List (List Char) → List Char
  | [] => []
  | [f] => f
  | f :: g :: rest => f ++ d :: joinWithChar d (g :: rest)

/-- Serialize one row the way `csv.writer` does: minimally quoted fields
joined by the delimiter, terminated by CRLF. -/
def csvWriteLine (delim : Char) (fields : List String) : String :=
  String.mk (joinWithChar delim (fields.map (csvFieldChars delim)) ++ ['\r', '\n'])

/-- Remove the trailing newline of a record before csv-parsing it (text
mode already normalized CRLF to LF on input). -/
def stripNewline (s : String) : String :=
  match s.data.reverse with
  | [] => s
  | c :: restRev => if c = '\n' then String.mk restRev.reverse else s

/-! ## `clean_filename` and the grouping core of `split_by_columns`
(chopper.py lines 249-303) -/

/-- Word characters of `re` (`\w`), restricted to ASCII as used here. -/
def isWordChar (c : Char) : Bool :=
  c.isAlphanum || c = '_'

/-- Translation of `clean_filename`: `re.sub` replaces every non-word
character with an underscore. -/
def clean_filename (s : String) : String :=
  String.mk (s.data.map (fun c => if isWordChar c then c else '_'))

def idxOf2 : List String → String → Nat
  | [], _ => 0
  | x :: rest, a => if x = a then 0 else idxOf2 rest a + 1

/-- Lookup `row[col]` on a `csv.DictReader` row: the dict has one key per
header field; a row shorter than the header is padded with `None`, which
the f-string renders as the text `None`; a missing key raises `KeyError`.
(A duplicated header name is out of scope for the claims.) -/
def dictLookup (fieldnames values : List String) (col : String) : Except String String :=
  if col ∈ fieldnames then Except.ok (values.getD (idxOf2 fieldnames col) "None")
  else Except.error ("KeyError: " ++ col)

/-- The `f"{col}_{row[col]}"` parts of the comprehension, evaluated left to
right, stopping at the first missing column. -/
def keyParts (fieldnames values : List String) : List String → Except String (List String)
  | [] => Except.ok []
  | col :: cols =>
    match dictLookup fieldnames values col with
    | Except.error e => Except.error e
    | Except.ok v =>
      match keyParts fieldnames values cols with
      | Except.error e => Except.error e
      | Except.ok parts => Except.ok ((col ++ "_" ++ v) :: parts)

/-- Output-file key of one row: sanitized `"__".join(parts)`. -/
def rowKey (fieldnames col_list values : List String) : Except String String :=
  match keyParts fieldnames values col_list with
  | Except.error e => Except.error e
  | Except.ok parts => Except.ok (clean_filename (joinWithStr "__" parts))

/-- Append a row to the bucket of its key, keeping first-seen bucket order
(the insertion-ordered `files` dict of `split_by_columns`). -/
def addToGroup {α : Type} (groups : List (String × List α)) (k : String) (r : α) :
    List (String × List α) :=
  match groups with
  | [] => [(k, [r])]
  | (k2, rs) :: rest =>
    if k2 = k then (k2, rs ++ [r]) :: rest else (k2, rs) :: addToGroup rest k r

def sbcGroups (fieldnames col_list : List String) :
    List (String × List (List String)) → List (List String) →
    Except String (List (String × List (List String)))
  | groups, [] => Except.ok groups
  | groups, r :: rest =>
    match rowKey fieldnames col_list r with
    | Except.error e => Except.error e
    | Except.ok k => sbcGroups fieldnames col_list (addToGroup groups k r) rest

/-- The grouping `split_by_columns` performs: every parsed data row is
appended to the bucket of its sanitized key; the first missing key column
aborts the scan with the `KeyError`. -/
def split_by_columns_run (fieldnames col_list : List String) (rows : List (List String)) :
    Except String (List (String × List (List String))) :=
  sbcGroups fieldnames col_list [] rows

/-! ## chuffle.py sizing helpers -/

/-- Translation of `get_equal_sizes` (chuffle.py lines 6-24); all uses have
nonnegative `x` and positive `n`, so `Nat` is faithful. -/
def get_equal_sizes (x n : Nat) : List Nat :=
  if x < n then [x]
  else if x % n = 0 then List.replicate n (x / n)
  else (List.range n).map (fun i => if n - x % n ≤ i then x / n + 1 else x / n)

/-- Translation of `get_limited_sizes` (chuffle.py lines 27-33);
`int(x / max_size)` is floor division for the nonnegative values used. -/
def get_limited_sizes (x max_size : Nat) : List Nat :=
  List.replicate (x / max_size) max_size ++
    (if x % max_size ≠ 0 then [x % max_size] else [])

/-! ## File-level outputs of `split_by_columns` -/

/-- Records of one output file of `split_by_columns`: `writeheader` writes
the re-serialized fieldnames once, then each row of the bucket is
re-serialized by the `DictWriter`. -/
def columnsFileRecords (delim : Char) (fieldnames : List String)
    (g : String × List (List String)) : List String :=
  csvWriteLine delim fieldnames :: g.2.map (csvWriteLine delim)

/-- Path-and-content outputs of `split_by_columns` on one file: the header
is parsed into fieldnames, each data record is parsed, rows are grouped by
sanitized key, and one output named `output_dir / key` is produced per
bucket in first-seen order.  A file with no records yields no outputs
(the `DictReader` is empty, so the `files` dict stays empty). -/
def columnsFileOutputs (outdir : String) (delim : Char) (col_list : List String)
    (f : String × List String) : Except String (List (String × List String)) :=
  match f.2 with
  | [] => Except.ok []
  | h :: data =>
    match split_by_columns_run (csvParseLine delim (stripNewline h)) col_list
        (data.map (fun r => csvParseLine delim (stripNewline r))) with
    | Except.error e => Except.error e
    | Except.ok gs =>
      Except.ok (gs.map (fun g =>
        (outdir ++ "/" ++ g.1,
          columnsFileRecords delim (csvParseLine delim (stripNewline h)) g)))

/-! ## `shuffle_file2` (chopper.py lines 178-206): offset-indexed rewrite.

The scan records `m.end()` of every newline match — the byte position
just after each `\n`.  Offset 0 (the header start) is never recorded, and
for a newline-terminated file the end-of-file position is.  Each permuted
offset is then `seek`-ed and one `readline()` is copied.  (As written the
function also appends to an undefined `files` variable, so calling it
raises `NameError`; the content model below describes the bytes one
iteration would write.) -/

def newlineEndsAux : List Char → Nat → List Nat
  | [], _ => []
  | c :: rest, p =>
    if c = '\n' then (p + 1) :: newlineEndsAux rest (p + 1) else newlineEndsAux rest (p + 1)

/-- Offsets collected by `shuffle_file2`'s scan loop. -/
def line_indices (s : String) : List Nat :=
  newlineEndsAux s.data 0

def takeLine : List Char → List Char
  | [] => []
  | c :: rest => if c = '\n' then [c] else c :: takeLine rest

/-- Model of `fin.seek(li); fin.readline()`: the text from offset `i` up
to and including the next newline, or to end of file. -/
def readlineFrom (s : String) (i : Nat) : String :=
  String.mk (takeLine (s.data.drop i))

def applyIdxNat (σ : List Nat) (xs : List Nat) : List Nat :=
  σ.map (fun i => xs.getD i 0)

/-- Concatenation of a file's records: the bytes `writelines` produces. -/
def fileText (records : List String) : String :=
  joinWithStr "" records

/-- Bytes written by one iteration of `shuffle_file2` when its
`random.shuffle` realizes the index permutation `σ` over the offset list:
one `readline` copy per permuted offset and nothing else — in particular
no header record. -/
def shuffle_file2_iteration (s : String) (σ : List Nat) : String :=
  fileText ((applyIdxNat σ (line_indices s)).map (readlineFrom s))

/-! ## Pipeline orchestration (`main`, chopper.py lines 413-487)

`main` threads a file list and the shared `config.is_original` flag
through the stages in the fixed order columns, shuffle, rows, equal; each
enabled stage replaces the file list with its outputs and the flag is
cleared after every stage (and already after directory consolidation).
Each stage removes each of its source files exactly when the flag is
false at the time the stage runs; `shuffle_file` with `shuffles == 1`
additionally renames its single output onto the source path.  The model
records the removed paths, the user-visible overwrites (a rename onto a
path that still exists, i.e. onto an `is_original` source), and all
renames. -/

structure PipeState where
  files : List (String × List String)
  is_orig : Bool
  removed : List String
  overwritten : List String
  renames : List (String × String)

inductive InputSpec where
  | file (p : String) (records : List String)
  | dir (entries : List (String × List String))

def combineRecords : List (String × List String) → List String
  | [] => []
  | first :: rest => first.2 ++ (rest.map (fun e => e.2.drop 1)).flatten

/-- `combine_files`: a single input file is returned as-is (no copy);
several files are concatenated into `output_dir / combined`, keeping the
first file's header and skipping the others' header line. -/
def combine_files_model (outdir : String) (entries : List (String × List String)) :
    String × List String :=
  if entries.length = 1 then entries.getD 0 ("", [])
  else (outdir ++ "/combined", combineRecords entries)

/-- Every stage ends with `if not config.is_original: os.remove(filepath)`. -/
def stageRemoved (isOrig : Bool) (srcs : List String) : List String :=
  if isOrig then [] else srcs

/-- Outputs of `split_by_rows` on one file, named `output_dir / stem_n`. -/
def rowsFileOutputs (outdir : String) (rows : Nat) (f : String × List String) :
    List (String × List String) :=
  (split_by_rows_content f.2 rows).enum.map
    (fun p => (outdir ++ "/" ++ stem f.1 ++ "_" ++ toString (p.1 + 1), p.2))

/-- Outputs of `split_by_equal` on one file, named `output_dir / stem_n`. -/
def equalFileOutputs (outdir : String) (k : Nat) (f : String × List String) :
    List (String × List String) :=
  (split_by_equal_content f.2 k).enum.map
    (fun p => (outdir ++ "/" ++ stem f.1 ++ "_" ++ toString (p.1 + 1), p.2))

/-- Outputs of `shuffle_file` on one file, named `output_dir / stem_shufflei`. -/
def shuffleFileOutputs (outdir : String) (shuffles : Nat) (perm : Nat → Nat → List Nat)
    (f : String × List String) : List (String × List String) :=
  (List.range shuffles).map (fun i =>
    (outdir ++ "/" ++ stem f.1 ++ "_shuffle" ++ toString (i + 1),
      shuffleIteration f.2 (perm i (f.2.length - 1))))

def runSplitStage (st : PipeState)
    (f : String × List String → List (String × List String)) : PipeState :=
  { files := (st.files.map f).flatten
    is_orig := false
    removed := st.removed ++ stageRemoved st.is_orig (st.files.map Prod.fst)
    overwritten := st.overwritten
    renames := st.renames }

def runShuffleStage (outdir : String) (shuffles : Nat) (perm : Nat → Nat → List Nat)
    (st : PipeState) : PipeState :=
  { files := (st.files.map (shuffleFileOutputs outdir shuffles perm)).flatten
    is_orig := false
    removed := st.removed ++ stageRemoved st.is_orig (st.files.map Prod.fst)
    overwritten := st.overwritten ++
      (if shuffles = 1 ∧ st.is_orig = true then st.files.map Prod.fst else [])
    renames := st.renames ++
      (if shuffles = 1 then
        st.files.map (fun f => (outdir ++ "/" ++ stem f.1 ++ "_shuffle1", f.1))
      else []) }

def columnsOutputsAll (outdir : String) (delim : Char) (col_list : List String) :
    List (String × List String) → Except String (List (String × List String))
  | [] => Except.ok []
  | f :: rest =>
    match columnsFileOutputs outdir delim col_list f with
    | Except.error e => Except.error e
    | Except.ok outs =>
      match columnsOutputsAll outdir delim col_list rest with
      | Except.error e => Except.error e
      | Except.ok more => Except.ok (outs ++ more)

def runColumnsStage (outdir : String) (delim : Char) (col_list : List String)
    (st : PipeState) : Except String PipeState :=
  match columnsOutputsAll outdir delim col_list st.files with
  | Except.error e => Except.error e
  | Except.ok outs =>
    Except.ok { files := outs
                is_orig := false
                removed := st.removed ++ stageRemoved st.is_orig (st.files.map Prod.fst)
                overwritten := st.overwritten
                renames := st.renames }

/-- The stage sequencing of `main`: resolve the input (directory inputs go
through `combine_files` and clear `is_original` unconditionally — even
when the directory held exactly one matching file, which `combine_files`
returned unchanged), then columns, shuffle, rows, equal in order. -/
def mainModel (input : InputSpec) (outdir : String) (delim : Char)
    (col_list : List String) (shuffles rows equal : Nat)
    (perm : Nat → Nat → List Nat) : Except String PipeState :=
  let st0 : PipeState :=
    match input with
    | InputSpec.file p records => ⟨[(p, records)], true, [], [], []⟩
    | InputSpec.dir entries => ⟨[combine_files_model outdir entries], false, [], [], []⟩
  match (if col_list ≠ [] then runColumnsStage outdir delim col_list st0
         else Except.ok st0) with
  | Except.error e => Except.error e
  | Except.ok st1 =>
    let st2 := if shuffles ≠ 0 then runShuffleStage outdir shuffles perm st1 else st1
    let st3 := if rows ≠ 0 then runSplitStage st2 (rowsFileOutputs outdir rows) else st2
    let st4 := if equal ≠ 0 then runSplitStage st3 (equalFileOutputs outdir equal) else st3
    Except.ok st4

/-! ## First claim theorems on the splitters -/

/-! ## Arithmetic and list helpers -/

theorem replicate_getD {α : Type} (a d : α) :
    ∀ (m j : Nat), j < m → (List.replicate m a).getD j d = a := by
  intro m
  induction m with
  | zero => intro j hj; omega
  | succ m ih =>
    intro j hj
    cases j with
    | zero => simp [List.replicate_succ]
    | succ j => simpa [List.replicate_succ] using ih j (by omega)

theorem ceil_div_split (R T : Nat) (hT : 0 < T) :
    (R + T - 1) / T = R / T + (if R % T = 0 then 0 else 1) := by
  have hd : T * (R / T) + R % T = R := Nat.div_add_mod R T
  have hrT : R % T < T := Nat.mod_lt _ hT
  obtain ⟨t, ht⟩ : ∃ t, T * (R / T) = t := ⟨_, rfl⟩
  rw [ht] at hd
  by_cases h0 : R % T = 0
  · rw [if_pos h0, Nat.add_zero]
    apply Nat.div_eq_of_lt_le
    · rw [Nat.mul_comm, ht]
      omega
    · rw [Nat.succ_mul, Nat.mul_comm, ht]
      omega
  · rw [if_neg h0]
    apply Nat.div_eq_of_lt_le
    · rw [Nat.succ_mul, Nat.mul_comm, ht]
      omega
    · rw [Nat.succ_mul, Nat.succ_mul, Nat.mul_comm, ht]
      omega

/-! ## Structure of `chunkAux` -/

theorem chunkAux_peel (n : Nat) :
    ∀ (data : List String) (c : Nat) (cur : List String),
      chunkAux n data c cur =
        if data.length ≤ c then [cur ++ data]
        else (cur ++ data.take c) ::
          chunkAux n (data.drop (c + 1)) (n - 1) [data.getD c ""] := by
  intro data
  induction data with
  | nil => intro c cur; simp [chunkAux]
  | cons x rest ih =>
    intro c cur
    cases c with
    | zero =>
      simp [chunkAux]
    | succ c =>
      show chunkAux n rest c (cur ++ [x]) = _
      rw [ih c (cur ++ [x])]
      by_cases h : rest.length ≤ c
      · rw [if_pos h, if_pos (by simpa using Nat.succ_le_succ h)]
        simp
      · rw [if_neg h, if_neg (by simp only [List.length_cons]; omega)]
        simp

theorem chunkAux_join (n : Nat) :
    ∀ (data : List String) (c : Nat) (cur : List String),
      (chunkAux n data c cur).flatten = cur ++ data := by
  intro data
  induction data with
  | nil => intro c cur; simp [chunkAux]
  | cons x rest ih =>
    intro c cur
    cases c with
    | zero => simp [chunkAux, ih]
    | succ c => simp [chunkAux, ih]

/-- Data-row conservation of the fixed-size splitter: concatenating the
chunks in order gives back the data records exactly. -/
theorem chunkBy_join (n : Nat) (data : List String) : (chunkBy n data).flatten = data := by
  cases data with
  | nil => rfl
  | cons x rest => simp [chunkBy, chunkAux_join]

theorem gls_step (L n : Nat) (hn : 0 < n) (hL : n ≤ L) :
    get_limited_sizes L n = n :: get_limited_sizes (L - n) n := by
  unfold get_limited_sizes
  rw [Nat.div_eq_sub_div hn hL, Nat.mod_eq_sub_mod hL, List.replicate_succ]
  rfl

theorem chunkBy_sizes (n : Nat) (hn : 0 < n) :
    ∀ (data : List String),
      (chunkBy n data).map List.length = get_limited_sizes data.length n := by
  have main : ∀ (m : Nat) (data : List String), data.length ≤ m →
      (chunkBy n data).map List.length = get_limited_sizes data.length n := by
    intro m
    induction m with
    | zero =>
      intro data h
      have : data = [] := List.eq_nil_of_length_eq_zero (by omega)
      subst this
      simp [chunkBy, get_limited_sizes]
    | succ m ih =>
      intro data hlen
      match data with
      | [] => simp [chunkBy, get_limited_sizes]
      | x :: rest =>
        have hlen1 : rest.length ≤ m := by
          simp only [List.length_cons] at hlen
          omega
        show (chunkAux n rest (n - 1) [x]).map List.length = _
        rw [chunkAux_peel]
        by_cases hc : rest.length ≤ n - 1
        · rw [if_pos hc]
          rcases Nat.lt_or_ge (rest.length + 1) n with h | h
          · simp [get_limited_sizes, Nat.div_eq_of_lt h, Nat.mod_eq_of_lt h,
              Nat.pos_iff_ne_zero.mp (Nat.succ_pos rest.length)]
          · have hEq : rest.length + 1 = n := by omega
            simp [get_limited_sizes, hEq, Nat.div_self hn, Nat.mod_self]
        · rw [if_neg hc]
          have hrn : n - 1 < rest.length := by omega
          have hnn : n - 1 + 1 = n := by omega
          have hdrop : rest.drop (n - 1) = rest.getD (n - 1) "" :: rest.drop n := by
            rw [List.getD_eq_getElem _ _ hrn, List.drop_eq_getElem_cons hrn, hnn]
          have htail : chunkAux n (rest.drop (n - 1 + 1)) (n - 1) [rest.getD (n - 1) ""] =
              chunkBy n (rest.drop (n - 1)) := by
            rw [hdrop, hnn]
            rfl
          have hlen2 : (rest.drop (n - 1)).length ≤ m := by
            simp only [List.length_drop]
            omega
          have hfirst : ([x] ++ rest.take (n - 1)).length = n := by
            simp only [List.length_append, List.length_take, List.length_cons,
              List.length_nil]
            omega
          rw [htail, List.map_cons, hfirst, ih _ hlen2]
          have hL : n ≤ rest.length + 1 := by omega
          have hdl : (rest.drop (n - 1)).length = rest.length + 1 - n := by
            simp only [List.length_drop]
            omega
          rw [hdl]
          show _ = get_limited_sizes (rest.length + 1) n
          rw [gls_step (rest.length + 1) n hn hL]
  intro data
  exact main data.length data (Nat.le_refl _)

theorem gls_length (R T : Nat) :
    (get_limited_sizes R T).length = R / T + (if R % T = 0 then 0 else 1) := by
  unfold get_limited_sizes
  by_cases h0 : R % T = 0 <;> simp [h0]

theorem gls_getD_front (R T j : Nat) (hj : j + 1 < (get_limited_sizes R T).length) :
    (get_limited_sizes R T).getD j 0 = T := by
  rw [gls_length] at hj
  unfold get_limited_sizes
  by_cases h0 : R % T = 0
  · rw [if_neg (not_not_intro h0), List.append_nil]
    apply replicate_getD
    rw [if_pos h0] at hj
    omega
  · have hjq : j < R / T := by
      rw [if_neg h0] at hj
      omega
    rw [if_pos h0, List.getD_append _ _ _ _ (by simpa using hjq)]
    exact replicate_getD _ _ _ _ hjq

theorem gls_getD_last (R T : Nat) (hR : 0 < R) :
    (get_limited_sizes R T).getD ((get_limited_sizes R T).length - 1) 0 =
      (if R % T = 0 then T else R % T) := by
  by_cases h0 : R % T = 0
  · have hq : 0 < R / T := by
      rcases Nat.eq_zero_or_pos (R / T) with h | h
      · exfalso
        have hdm := Nat.div_add_mod R T
        rw [h, h0, Nat.mul_zero] at hdm
        omega
      · exact h
    rw [if_pos h0]
    unfold get_limited_sizes
    rw [if_neg (not_not_intro h0), List.append_nil, List.length_replicate]
    exact replicate_getD _ _ _ _ (by omega)
  · rw [if_neg h0]
    unfold get_limited_sizes
    rw [if_pos h0]
    have hlen : (List.replicate (R / T) T ++ [R % T]).length = R / T + 1 := by
      simp
    rw [hlen]
    rw [List.getD_append_right _ _ _ _ (by simp)]
    simp

/-- C5: for R > 0 data rows and threshold T > 0, `split_by_rows` produces
exactly ceil(R/T) output files; every output except possibly the last
holds exactly T data rows, the last holds R mod T data rows (or T when T
divides R), and the per-file data-row counts coincide with chuffle.py's
`get_limited_sizes`. -/
theorem fixedSizeSplitSizes (h : String) (data : List String) (t : Nat)
    (ht : 0 < t) (hne : data ≠ []) :
    (split_by_rows_content (h :: data) t).length = (data.length + t - 1) / t ∧
    (∀ j, j + 1 < (split_by_rows_content (h :: data) t).length →
      ((split_by_rows_content (h :: data) t).map (fun f => f.length - 1)).getD j 0 = t) ∧
    ((split_by_rows_content (h :: data) t).map (fun f => f.length - 1)).getD
        ((split_by_rows_content (h :: data) t).length - 1) 0 =
      (if data.length % t = 0 then t else data.length % t) ∧
    (split_by_rows_content (h :: data) t).map (fun f => f.length - 1) =
      get_limited_sizes data.length t := by
  have hmap : (split_by_rows_content (h :: data) t).map (fun f => f.length - 1) =
      get_limited_sizes data.length t := by
    show ((chunkBy t data).map (fun c => h :: c)).map (fun f => f.length - 1) = _
    rw [List.map_map, ← chunkBy_sizes t ht data]
    apply List.map_congr_left
    intro c _
    simp
  have hlen : (split_by_rows_content (h :: data) t).length =
      (get_limited_sizes data.length t).length := by
    rw [← hmap, List.length_map]
  have hR : 0 < data.length := List.length_pos.mpr hne
  refine ⟨?_, ?_, ?_, hmap⟩
  · rw [hlen, gls_length, ceil_div_split _ _ ht]
  · intro j hj
    rw [hmap]
    exact gls_getD_front _ _ _ (by rw [← hlen]; exact hj)
  · rw [hmap, hlen]
    exact gls_getD_last _ _ hR

/-- C5 witness: 10 data rows with threshold 3 give outputs of sizes 3,3,3,1. -/
theorem fixedSizeSplitSizesWitness :
    ((0 : Nat) < 3 ∧ (["a\n","b\n","c\n","d\n","e\n","f\n","g\n","h\n","i\n","j\n"] :
        List String) ≠ []) ∧
    (split_by_rows_content
        ("hdr\n" :: ["a\n","b\n","c\n","d\n","e\n","f\n","g\n","h\n","i\n","j\n"]) 3).map
      (fun f => f.length - 1) = [3, 3, 3, 1] := by
  refine ⟨⟨by decide, by decide⟩, ?_⟩
  have hs := (fixedSizeSplitSizes "hdr\n"
    ["a\n","b\n","c\n","d\n","e\n","f\n","g\n","h\n","i\n","j\n"] 3
    (by decide) (by decide)).2.2.2
  rw [hs]
  decide

/-! ## Structure of `strideAux` (round-robin distribution) -/

theorem strideAux_getD (k' : Nat) :
    ∀ (xs : List String) (c m : Nat) (d : String),
      (strideAux (k' + 1) xs c).getD m d = xs.getD (c + m * (k' + 1)) d := by
  intro xs
  induction xs with
  | nil => intro c m d; simp [strideAux]
  | cons x rest ih =>
    intro c m d
    cases c with
    | zero =>
      cases m with
      | zero => simp [strideAux]
      | succ m =>
        show (strideAux (k' + 1) rest k').getD m d = (x :: rest).getD (0 + (m + 1) * (k' + 1)) d
        rw [ih, Nat.zero_add, Nat.succ_mul,
          show m * (k' + 1) + (k' + 1) = (m * (k' + 1) + k') + 1 from rfl,
          List.getD_cons_succ, Nat.add_comm (m * (k' + 1)) k']
    | succ c =>
      show (strideAux (k' + 1) rest c).getD m d = (x :: rest).getD (c + 1 + m * (k' + 1)) d
      rw [ih, show c + 1 + m * (k' + 1) = (c + m * (k' + 1)) + 1 from by
        rw [Nat.add_right_comm], List.getD_cons_succ]

theorem strideAux_length (k' : Nat) :
    ∀ (xs : List String) (c : Nat),
      (strideAux (k' + 1) xs c).length = (xs.length - c + k') / (k' + 1) := by
  intro xs
  induction xs with
  | nil =>
    intro c
    simp [strideAux, Nat.div_eq_of_lt (Nat.lt_succ_self k')]
  | cons x rest ih =>
    intro c
    cases c with
    | zero =>
      show (x :: strideAux (k' + 1) rest k').length = _
      rw [List.length_cons, ih, List.length_cons, Nat.sub_zero,
        show rest.length + 1 + k' = rest.length + (k' + 1) from by omega,
        Nat.add_div_right _ (Nat.succ_pos k')]
      congr 1
      rcases Nat.lt_or_ge rest.length k' with h | h
      · rw [Nat.sub_eq_zero_of_le (Nat.le_of_lt h), Nat.zero_add,
          Nat.div_eq_of_lt (Nat.lt_succ_self k'), Nat.div_eq_of_lt (by omega)]
      · congr 1
        omega
    | succ c =>
      show (strideAux (k' + 1) rest c).length = _
      rw [ih, List.length_cons]
      congr 1
      omega

theorem stride_count (R k i : Nat) (hk : 0 < k) (hi : i < k) :
    (R - i + k - 1) / k = R / k + (if i < R % k then 1 else 0) := by
  have hd : k * (R / k) + R % k = R := Nat.div_add_mod R k
  have hrk : R % k < k := Nat.mod_lt _ hk
  obtain ⟨t, ht⟩ : ∃ t, k * (R / k) = t := ⟨_, rfl⟩
  rw [ht] at hd
  by_cases hcase : i < R % k
  · rw [if_pos hcase]
    apply Nat.div_eq_of_lt_le
    · rw [Nat.succ_mul, Nat.mul_comm, ht]
      omega
    · rw [Nat.succ_mul, Nat.succ_mul, Nat.mul_comm, ht]
      omega
  · rw [if_neg hcase, Nat.add_zero]
    apply Nat.div_eq_of_lt_le
    · rw [Nat.mul_comm, ht]
      omega
    · rw [Nat.succ_mul, Nat.mul_comm, ht]
      omega

/-- Data-row conservation of the equal-count splitter: the outputs of the
round-robin cycle, concatenated, are a permutation of the data records. -/
theorem stride_join_perm (k : Nat) (hk : 0 < k) :
    ∀ (xs : List String),
      List.Perm (((List.range k).map (fun i => strideAux k xs i)).flatten) xs := by
  cases k with
  | zero => omega
  | succ k' =>
    intro xs
    induction xs with
    | nil => simp [strideAux]
    | cons x rest ih =>
      have hzero : strideAux (k' + 1) (x :: rest) 0 = x :: strideAux (k' + 1) rest k' := rfl
      rw [List.range_succ_eq_map, List.map_cons, List.flatten_cons, hzero, List.map_map]
      have hcomp : ((fun i => strideAux (k' + 1) (x :: rest) i) ∘ Nat.succ) =
          fun j => strideAux (k' + 1) rest j := rfl
      rw [hcomp, List.cons_append]
      refine List.Perm.cons x ?_
      rw [List.range_succ, List.map_append] at ih
      simp only [List.map_cons, List.map_nil, List.flatten_append, List.flatten_cons,
        List.flatten_nil, List.append_nil] at ih
      exact List.Perm.trans List.perm_append_comm ih

theorem range_map_getD {α : Type} (k i : Nat) (f : Nat → α) (d : α) (hi : i < k) :
    ((List.range k).map f).getD i d = f i := by
  rw [List.getD_eq_getElem _ _ (by simpa using hi)]
  simp

/-- C10: a header-only input (one record, zero data rows) makes
`split_by_rows` return an empty file list for every threshold: the loop
body never reaches the file-opening branch, so the dataset vanishes. -/
theorem headerOnlyFixedSplitEmpty :
    ∀ (h : String) (t : Nat), split_by_rows_content [h] t = [] := by
  intro h t
  rfl

/-! ## Conservation lemmas for shuffling and column grouping -/

theorem map_getD_range {α : Type} (d : α) :
    ∀ (l : List α), (List.range l.length).map (fun i => l.getD i d) = l := by
  intro l
  induction l with
  | nil => simp
  | cons x xs ih =>
    rw [List.length_cons, List.range_succ_eq_map, List.map_cons, List.map_map]
    have hcomp : ((fun i => (x :: xs).getD i d) ∘ Nat.succ) = fun i => xs.getD i d := rfl
    rw [hcomp, List.getD_cons_zero, ih]

/-- Applying to a list an index list that is a permutation of its range
permutes the list (this is what `random.shuffle` guarantees). -/
theorem applyIdx_perm (σ : List Nat) (xs : List String)
    (hσ : List.Perm σ (List.range xs.length)) :
    List.Perm (applyIdx σ xs "") xs := by
  have h1 : List.Perm (applyIdx σ xs "")
      ((List.range xs.length).map (fun i => xs.getD i "")) :=
    hσ.map _
  rw [map_getD_range] at h1
  exact h1

theorem addToGroup_flatten {α : Type} (k : String) (r : α) :
    ∀ (groups : List (String × List α)),
      List.Perm (((addToGroup groups k r).map Prod.snd).flatten)
        ((groups.map Prod.snd).flatten ++ [r]) := by
  intro groups
  induction groups with
  | nil => simp [addToGroup]
  | cons g rest ih =>
    obtain ⟨k2, rs⟩ := g
    by_cases he : k2 = k
    · simp only [addToGroup, if_pos he, List.map_cons, List.flatten_cons]
      rw [List.append_assoc, List.append_assoc]
      exact List.Perm.append_left rs List.perm_append_comm
    · simp only [addToGroup, if_neg he, List.map_cons, List.flatten_cons]
      rw [List.append_assoc]
      exact List.Perm.append_left rs ih

theorem sbcGroups_flatten (fieldnames col_list : List String) :
    ∀ (rows : List (List String)) (groups gs : List (String × List (List String))),
      sbcGroups fieldnames col_list groups rows = Except.ok gs →
      List.Perm ((gs.map Prod.snd).flatten) ((groups.map Prod.snd).flatten ++ rows) := by
  intro rows
  induction rows with
  | nil =>
    intro groups gs hrun
    injection hrun with h
    subst h
    rw [List.append_nil]
  | cons r rest ih =>
    intro groups gs hrun
    cases hk : rowKey fieldnames col_list r with
    | error e =>
      simp only [sbcGroups, hk] at hrun
      exact absurd hrun (by simp)
    | ok k =>
      simp only [sbcGroups, hk] at hrun
      refine (ih _ _ hrun).trans ?_
      refine List.Perm.trans (List.Perm.append_right rest (addToGroup_flatten k r groups)) ?_
      rw [List.append_assoc, List.singleton_append]

/-- Conservation of the whole column-partition grouping: the buckets,
concatenated, are a permutation of the parsed data rows. -/
theorem split_by_columns_flatten (fieldnames col_list : List String)
    (rows : List (List String)) (gs : List (String × List (List String)))
    (hrun : split_by_columns_run fieldnames col_list rows = Except.ok gs) :
    List.Perm ((gs.map Prod.snd).flatten) rows := by
  have h := sbcGroups_flatten fieldnames col_list rows [] gs hrun
  simpa using h

/-- C2 counterexample: the shuffle stage with shuffle count 2 on a file
with one data row emits two output files that each repeat that row, so
the union of data rows across the stage's outputs is not the input's
data-row multiset — the claim fails for the shuffle stage as soon as
N > 1. -/
theorem shuffleStageDuplicatesRows :
    ¬ List.Perm
      (((shuffleOutputs ["h\n", "r\n"] 2 (fun _ n => List.range n)).map
        (List.drop 1)).flatten)
      ["r\n"] := by
  intro hperm
  have hval : (((shuffleOutputs ["h\n", "r\n"] 2 (fun _ n => List.range n)).map
      (List.drop 1)).flatten) = ["r\n", "r\n"] := rfl
  rw [hval] at hperm
  have hlen := hperm.length_eq
  simp at hlen

/-- C2 (amended): each splitting stage conserves the multiset of data
rows — fixed-size split even preserves them in order, equal-count split
permutes them, and the column partitioner's buckets concatenate to a
permutation of the parsed rows — while the shuffle stage conserves them
per output file: every one of its N outputs individually holds a
permutation of the input's data rows (so the union over the stage's
outputs holds N copies of each row when N > 1). -/
theorem stageRowConservation (h : String) (data : List String) (t k shuffles : Nat)
    (σ : List Nat) (perm : Nat → Nat → List Nat)
    (ht : 0 < t) (hk : 0 < k)
    (hσ : List.Perm σ (List.range data.length))
    (hperm : ∀ i, List.Perm (perm i data.length) (List.range data.length))
    (fieldnames col_list : List String) (rows : List (List String))
    (gs : List (String × List (List String)))
    (hrun : split_by_columns_run fieldnames col_list rows = Except.ok gs) :
    ((split_by_rows_content (h :: data) t).map (List.drop 1)).flatten = data ∧
    List.Perm (((split_by_equal_content (h :: data) k).map (List.drop 1)).flatten) data ∧
    List.Perm (applyIdx σ data "") data ∧
    (∀ out ∈ shuffleOutputs (h :: data) shuffles perm, List.Perm (out.drop 1) data) ∧
    List.Perm ((gs.map Prod.snd).flatten) rows := by
  refine ⟨?_, ?_, applyIdx_perm σ data hσ, ?_,
    split_by_columns_flatten fieldnames col_list rows gs hrun⟩
  · show (((chunkBy t data).map (fun c => h :: c)).map (List.drop 1)).flatten = data
    rw [List.map_map]
    have hcomp : (List.drop 1 ∘ fun c : List String => h :: c) = id := rfl
    rw [hcomp, List.map_id]
    exact chunkBy_join t data
  · show ((((List.range k).map (fun i => h :: strideAux k data i)).map
      (List.drop 1)).flatten).Perm data
    rw [List.map_map]
    have hcomp : (List.drop 1 ∘ fun i => h :: strideAux k data i) =
        fun i => strideAux k data i := rfl
    rw [hcomp]
    exact stride_join_perm k hk data
  · intro out hout
    simp only [shuffleOutputs, List.mem_map, List.mem_range] at hout
    obtain ⟨i, _, rfl⟩ := hout
    show ((h :: applyIdx (perm i ((h :: data).length - 1)) data "").drop 1).Perm data
    rw [List.drop_one, List.tail_cons]
    exact applyIdx_perm _ data (by simpa using hperm i)

/-- C2 witness: concrete instantiation of the amended conservation theorem. -/
theorem stageRowConservationWitness :
    ((0 : Nat) < 2 ∧
      List.Perm [2, 0, 1] (List.range 3) ∧
      split_by_columns_run ["g"] ["g"] [["x"], ["y"], ["x"]] =
        Except.ok [("g_x", [["x"], ["x"]]), ("g_y", [["y"]])]) ∧
    List.Perm (applyIdx [2, 0, 1] ["a\n", "b\n", "c\n"] "") ["a\n", "b\n", "c\n"] := by
  have hp : List.Perm [2, 0, 1] (List.range 3) := by decide
  have hr : split_by_columns_run ["g"] ["g"] [["x"], ["y"], ["x"]] =
      Except.ok [("g_x", [["x"], ["x"]]), ("g_y", [["y"]])] := rfl
  refine ⟨⟨by decide, hp, hr⟩, ?_⟩
  exact (stageRowConservation "h\n" ["a\n", "b\n", "c\n"] 2 2 1 [2, 0, 1]
    (fun _ n => List.range n) (by decide) (by decide) hp
    (fun _ => List.Perm.refl _) ["g"] ["g"] [["x"], ["y"], ["x"]]
    [("g_x", [["x"], ["x"]]), ("g_y", [["y"]])] hr).2.2.1

/-- C4: the equal-count split distributes data rows round-robin — output
`i` holds, after its header, exactly the data records at positions
`i, i+k, i+2k, ...` (so data row `j` goes to output `j mod k`); its
data-row count is `R/k + 1` when `i < R mod k` and `R/k` otherwise, which
is always `floor (R/k)` or `ceil (R/k)`; concretely, 10 data rows with
`k = 3` give sizes 4,3,3 in file order. -/
theorem equalSplitRoundRobin :
    (∀ (h : String) (data : List String) (k i : Nat), 0 < k → i < k →
      (((split_by_equal_content (h :: data) k).getD i []).length - 1 =
        data.length / k + (if i < data.length % k then 1 else 0)) ∧
      (((split_by_equal_content (h :: data) k).getD i []).length - 1 = data.length / k ∨
        ((split_by_equal_content (h :: data) k).getD i []).length - 1 =
          (data.length + k - 1) / k) ∧
      (∀ m, ((split_by_equal_content (h :: data) k).getD i []).getD (m + 1) "" =
        data.getD (i + m * k) "")) ∧
    (split_by_equal_content
        ("h\n" :: ["0\n", "1\n", "2\n", "3\n", "4\n", "5\n", "6\n", "7\n", "8\n", "9\n"]) 3).map
      (fun f => f.length - 1) = [4, 3, 3] := by
  constructor
  · intro h data k i hk hi
    obtain ⟨k', rfl⟩ : ∃ k', k = k' + 1 := ⟨k - 1, by omega⟩
    have hout : (split_by_equal_content (h :: data) (k' + 1)).getD i [] =
        h :: strideAux (k' + 1) data i := by
      show ((List.range (k' + 1)).map (fun i => h :: strideAux (k' + 1) data i)).getD i [] = _
      exact range_map_getD _ _ _ _ hi
    have hlen : (h :: strideAux (k' + 1) data i).length - 1 =
        (data.length - i + k') / (k' + 1) := by
      rw [List.length_cons, strideAux_length]
      simp
    have hsc := stride_count data.length (k' + 1) i hk hi
    refine ⟨?_, ?_, ?_⟩
    · rw [hout, hlen]
      exact hsc
    · rw [hout, hlen]
      have hceil := ceil_div_split data.length (k' + 1) hk
      by_cases hcase : i < data.length % (k' + 1)
      · right
        rw [show ((data.length - i + k') / (k' + 1) : Nat) =
            (data.length - i + (k' + 1) - 1) / (k' + 1) from rfl, hsc, hceil,
          if_pos hcase, if_neg (by omega)]
      · left
        rw [show ((data.length - i + k') / (k' + 1) : Nat) =
            (data.length - i + (k' + 1) - 1) / (k' + 1) from rfl, hsc,
          if_neg hcase, Nat.add_zero]
    · intro m
      rw [hout, List.getD_cons_succ, strideAux_getD]
  · decide

/-- C4 witness: on a 3-data-row file split 2 ways, output 1 gets data rows
1 and the sizes follow the round-robin formula. -/
theorem equalSplitRoundRobinWitness :
    ((0 : Nat) < 2 ∧ (1 : Nat) < 2) ∧
    ((split_by_equal_content ("h\n" :: ["a\n", "b\n", "c\n"]) 2).getD 1 []).getD 1 "" =
      "b\n" ∧
    ((split_by_equal_content ("h\n" :: ["a\n", "b\n", "c\n"]) 2).getD 1 []).length - 1 = 1 := by
  refine ⟨⟨by decide, by decide⟩, ?_, ?_⟩
  · have hthm := (equalSplitRoundRobin.1 "h\n" ["a\n", "b\n", "c\n"] 2 1
      (by decide) (by decide)).2.2 0
    exact hthm.trans (by decide)
  · have hthm := (equalSplitRoundRobin.1 "h\n" ["a\n", "b\n", "c\n"] 2 1
      (by decide) (by decide)).1
    exact hthm.trans (by decide)

/-! ## Key congruence, membership and uniqueness for the column partitioner -/

theorem keyParts_congr (fieldnames r1 r2 : List String) :
    ∀ (cols : List String),
      (∀ col ∈ cols, dictLookup fieldnames r1 col = dictLookup fieldnames r2 col) →
      keyParts fieldnames r1 cols = keyParts fieldnames r2 cols := by
  intro cols
  induction cols with
  | nil => intro _; rfl
  | cons c cs ih =>
    intro hall
    have hc := hall c (List.mem_cons_self c cs)
    have hcs := ih (fun col hm => hall col (List.mem_cons_of_mem c hm))
    simp only [keyParts, hc, hcs]

theorem rowKey_congr (fieldnames col_list r1 r2 : List String)
    (hall : ∀ col ∈ col_list, dictLookup fieldnames r1 col = dictLookup fieldnames r2 col) :
    rowKey fieldnames col_list r1 = rowKey fieldnames col_list r2 := by
  unfold rowKey
  rw [keyParts_congr fieldnames r1 r2 col_list hall]

theorem keyParts_error (fieldnames values : List String) (col : String)
    (hf : col ∉ fieldnames) :
    ∀ (cols : List String), col ∈ cols →
      ∃ e, keyParts fieldnames values cols = Except.error e := by
  intro cols
  induction cols with
  | nil => intro hmem; simp at hmem
  | cons c cs ih =>
    intro hmem
    by_cases hcf : c ∈ fieldnames
    · have hcol_cs : col ∈ cs := by
        rcases List.mem_cons.mp hmem with h | h
        · subst h
          exact absurd hcf hf
        · exact h
      obtain ⟨e, he⟩ := ih hcol_cs
      refine ⟨e, ?_⟩
      simp only [keyParts, dictLookup, if_pos hcf, he]
    · refine ⟨"KeyError: " ++ c, ?_⟩
      simp only [keyParts, dictLookup, if_neg hcf]

theorem rowKey_error (fieldnames col_list values : List String) (col : String)
    (hc : col ∈ col_list) (hf : col ∉ fieldnames) :
    ∃ e, rowKey fieldnames col_list values = Except.error e := by
  obtain ⟨e, he⟩ := keyParts_error fieldnames values col hf col_list hc
  exact ⟨e, by simp only [rowKey, he]⟩

theorem addToGroup_mem_self {α : Type} (k : String) (r : α) :
    ∀ (groups : List (String × List α)),
      ∃ rs, (k, rs) ∈ addToGroup groups k r ∧ r ∈ rs := by
  intro groups
  induction groups with
  | nil => exact ⟨[r], by simp [addToGroup]⟩
  | cons g rest ih =>
    obtain ⟨k2, rs2⟩ := g
    by_cases he : k2 = k
    · subst he
      exact ⟨rs2 ++ [r], by simp [addToGroup]⟩
    · obtain ⟨rs, hmem, hr⟩ := ih
      exact ⟨rs, by simp only [addToGroup, if_neg he]; exact List.mem_cons_of_mem _ hmem, hr⟩

theorem addToGroup_mem_preserve {α : Type} (k : String) (r : α) (k0 : String) (x : α) :
    ∀ (groups : List (String × List α)) (rs0 : List α),
      (k0, rs0) ∈ groups → x ∈ rs0 →
      ∃ rs1, (k0, rs1) ∈ addToGroup groups k r ∧ x ∈ rs1 := by
  intro groups
  induction groups with
  | nil =>
    intro rs0 hmem _
    simp at hmem
  | cons g rest ih =>
    obtain ⟨k2, rs2⟩ := g
    intro rs0 hmem hx
    rcases List.mem_cons.mp hmem with h | h
    · injection h with e1 e2
      subst e1
      subst e2
      by_cases he : k0 = k
      · refine ⟨rs0 ++ [r], ?_, List.mem_append_left _ hx⟩
        simp only [addToGroup, if_pos he]
        exact List.mem_cons_self _ _
      · refine ⟨rs0, ?_, hx⟩
        simp only [addToGroup, if_neg he]
        exact List.mem_cons_self _ _
    · by_cases he : k2 = k
      · refine ⟨rs0, ?_, hx⟩
        simp only [addToGroup, if_pos he]
        exact List.mem_cons_of_mem _ h
      · obtain ⟨rs1, hm1, hx1⟩ := ih rs0 h hx
        refine ⟨rs1, ?_, hx1⟩
        simp only [addToGroup, if_neg he]
        exact List.mem_cons_of_mem _ hm1

theorem sbcGroups_preserve (fieldnames col_list : List String) :
    ∀ (rows : List (List String)) (groups gs : List (String × List (List String)))
      (k0 : String) (x : List String) (rs0 : List (List String)),
      sbcGroups fieldnames col_list groups rows = Except.ok gs →
      (k0, rs0) ∈ groups → x ∈ rs0 →
      ∃ rs1, (k0, rs1) ∈ gs ∧ x ∈ rs1 := by
  intro rows
  induction rows with
  | nil =>
    intro groups gs k0 x rs0 hrun hm hx
    injection hrun with h
    subst h
    exact ⟨rs0, hm, hx⟩
  | cons r rest ih =>
    intro groups gs k0 x rs0 hrun hm hx
    cases hk : rowKey fieldnames col_list r with
    | error e =>
      simp only [sbcGroups, hk] at hrun
      exact absurd hrun (by simp)
    | ok k =>
      simp only [sbcGroups, hk] at hrun
      obtain ⟨rs1, hm1, hx1⟩ := addToGroup_mem_preserve k r k0 x groups rs0 hm hx
      exact ih _ _ _ _ _ hrun hm1 hx1

theorem sbcGroups_mem (fieldnames col_list : List String) :
    ∀ (rows : List (List String)) (groups gs : List (String × List (List String)))
      (r : List String) (k : String),
      sbcGroups fieldnames col_list groups rows = Except.ok gs →
      r ∈ rows → rowKey fieldnames col_list r = Except.ok k →
      ∃ rs, (k, rs) ∈ gs ∧ r ∈ rs := by
  intro rows
  induction rows with
  | nil =>
    intro _ _ _ _ _ hmem _
    simp at hmem
  | cons r0 rest ih =>
    intro groups gs r k hrun hmem hkey
    cases hk0 : rowKey fieldnames col_list r0 with
    | error e =>
      simp only [sbcGroups, hk0] at hrun
      exact absurd hrun (by simp)
    | ok key0 =>
      simp only [sbcGroups, hk0] at hrun
      rcases List.mem_cons.mp hmem with h | h
      · subst h
        rw [hkey] at hk0
        injection hk0 with hkk
        subst hkk
        obtain ⟨rs, hmem0, hr0⟩ := addToGroup_mem_self k r groups
        exact sbcGroups_preserve fieldnames col_list rest _ gs k r rs hrun hmem0 hr0
      · exact ih _ _ _ _ hrun h hkey

def keysOf {α : Type} (groups : List (String × List α)) : List String :=
  groups.map Prod.fst

theorem addToGroup_keys {α : Type} (k : String) (r : α) :
    ∀ (groups : List (String × List α)),
      keysOf (addToGroup groups k r) =
        if k ∈ keysOf groups then keysOf groups else keysOf groups ++ [k] := by
  intro groups
  induction groups with
  | nil => simp [addToGroup, keysOf]
  | cons g rest ih =>
    obtain ⟨k2, rs2⟩ := g
    by_cases he : k2 = k
    · subst he
      simp [addToGroup, keysOf]
    · have hne : k ≠ k2 := fun hh => he hh.symm
      have hstep : addToGroup ((k2, rs2) :: rest) k r = (k2, rs2) :: addToGroup rest k r := by
        simp only [addToGroup, if_neg he]
      by_cases hmem : k ∈ keysOf rest
      · rw [if_pos (by simp only [keysOf, List.map_cons]; exact List.mem_cons_of_mem _ hmem),
          hstep]
        show k2 :: keysOf (addToGroup rest k r) = _
        rw [ih, if_pos hmem]
        rfl
      · rw [if_neg (by
          simp only [keysOf, List.map_cons, List.mem_cons]
          push_neg
          exact ⟨hne, hmem⟩), hstep]
        show k2 :: keysOf (addToGroup rest k r) = _
        rw [ih, if_neg hmem]
        rfl

theorem sbcGroups_keys_nodup (fieldnames col_list : List String) :
    ∀ (rows : List (List String)) (groups gs : List (String × List (List String))),
      (keysOf groups).Nodup →
      sbcGroups fieldnames col_list groups rows = Except.ok gs →
      (keysOf gs).Nodup := by
  intro rows
  induction rows with
  | nil =>
    intro groups gs hnd hrun
    injection hrun with h
    subst h
    exact hnd
  | cons r rest ih =>
    intro groups gs hnd hrun
    cases hk : rowKey fieldnames col_list r with
    | error e =>
      simp only [sbcGroups, hk] at hrun
      exact absurd hrun (by simp)
    | ok k =>
      simp only [sbcGroups, hk] at hrun
      refine ih _ _ ?_ hrun
      rw [addToGroup_keys]
      by_cases hmem : k ∈ keysOf groups
      · rw [if_pos hmem]
        exact hnd
      · rw [if_neg hmem]
        simp [List.nodup_append, hnd, hmem]

theorem assoc_unique {α : Type} :
    ∀ (gs : List (String × α)) (k : String) (a b : α),
      (gs.map Prod.fst).Nodup → (k, a) ∈ gs → (k, b) ∈ gs → a = b := by
  intro gs
  induction gs with
  | nil =>
    intro k a b _ ha _
    simp at ha
  | cons g rest ih =>
    obtain ⟨k2, c⟩ := g
    intro k a b hnd ha hb
    simp only [List.map_cons, List.nodup_cons] at hnd
    obtain ⟨hk2, hndr⟩ := hnd
    rcases List.mem_cons.mp ha with h1 | h1
    · injection h1 with e1 e2
      rcases List.mem_cons.mp hb with h2 | h2
      · injection h2 with f1 f2
        rw [e2, f2]
      · exfalso
        subst e1
        exact hk2 (by simpa using List.mem_map_of_mem Prod.fst h2)
    · rcases List.mem_cons.mp hb with h2 | h2
      · exfalso
        injection h2 with f1 f2
        subst f1
        exact hk2 (by simpa using List.mem_map_of_mem Prod.fst h1)
      · exact ih k a b hndr h1 h2

/-- C6: two rows whose key-column lookups all agree get the same sanitized
key and land in the same bucket (output file) of the column partitioner;
two rows with different sanitized keys land in distinct buckets; and two
distinct value combinations can sanitize to the same cleaned name and so
merge into one file — concretely the values "A,B" and "A B" for key
column g both give the key g_A_B. -/
theorem columnPartitionKeys (fieldnames col_list : List String)
    (rows : List (List String)) (gs : List (String × List (List String)))
    (r1 r2 : List String) (k1 k2 : String)
    (hrun : split_by_columns_run fieldnames col_list rows = Except.ok gs)
    (h1 : r1 ∈ rows) (h2 : r2 ∈ rows)
    (hk1 : rowKey fieldnames col_list r1 = Except.ok k1)
    (hk2 : rowKey fieldnames col_list r2 = Except.ok k2) :
    ((∀ col ∈ col_list, dictLookup fieldnames r1 col = dictLookup fieldnames r2 col) →
      k1 = k2) ∧
    (k1 = k2 → ∃ rs, (k1, rs) ∈ gs ∧ r1 ∈ rs ∧ r2 ∈ rs) ∧
    (k1 ≠ k2 → ∃ rs1 rs2, (k1, rs1) ∈ gs ∧ (k2, rs2) ∈ gs ∧ r1 ∈ rs1 ∧ r2 ∈ rs2) ∧
    rowKey ["g"] ["g"] ["A,B"] = rowKey ["g"] ["g"] ["A B"] := by
  have hmem1 := sbcGroups_mem fieldnames col_list rows [] gs r1 k1 hrun h1 hk1
  have hmem2 := sbcGroups_mem fieldnames col_list rows [] gs r2 k2 hrun h2 hk2
  have hnd : (keysOf gs).Nodup :=
    sbcGroups_keys_nodup fieldnames col_list rows [] gs (by simp [keysOf]) hrun
  refine ⟨?_, ?_, ?_, rfl⟩
  · intro hall
    have hcong := rowKey_congr fieldnames col_list r1 r2 hall
    rw [hk1, hk2] at hcong
    injection hcong
  · intro heq
    subst heq
    obtain ⟨rs1, hg1, hr1⟩ := hmem1
    obtain ⟨rs2, hg2, hr2⟩ := hmem2
    have hrs : rs1 = rs2 := assoc_unique gs k1 rs1 rs2 hnd hg1 hg2
    subst hrs
    exact ⟨rs1, hg1, hr1, hr2⟩
  · intro _
    obtain ⟨rs1, hg1, hr1⟩ := hmem1
    obtain ⟨rs2, hg2, hr2⟩ := hmem2
    exact ⟨rs1, rs2, hg1, hg2, hr1, hr2⟩

/-- C6 witness: a two-row, two-key instance of the partition-key theorem. -/
theorem columnPartitionKeysWitness :
    (split_by_columns_run ["g"] ["g"] [["x"], ["y"]] =
        Except.ok [("g_x", [["x"]]), ("g_y", [["y"]])] ∧
      rowKey ["g"] ["g"] ["x"] = Except.ok "g_x" ∧
      rowKey ["g"] ["g"] ["y"] = Except.ok "g_y") ∧
    (∃ rs1 rs2, ("g_x", rs1) ∈ [("g_x", [["x"]]), ("g_y", [["y"]])] ∧
      ("g_y", rs2) ∈ [("g_x", [["x"]]), ("g_y", [["y"]])] ∧
      (["x"] : List String) ∈ rs1 ∧ (["y"] : List String) ∈ rs2) := by
  refine ⟨⟨rfl, rfl, rfl⟩, ?_⟩
  exact (columnPartitionKeys ["g"] ["g"] [["x"], ["y"]]
    [("g_x", [["x"]]), ("g_y", [["y"]])] ["x"] ["y"] "g_x" "g_y" rfl
    (by decide) (by decide) rfl rfl).2.2.1 (by decide)

/-- C3 counterexample: on a source file whose header record is the bytes
`"a",b` (a quoted first field), the column partitioner's output file
starts with the csv re-serialization `a,b` plus a CRLF terminator, which
is not byte-for-byte the source header record. -/
theorem columnsHeaderNotByteIdentical :
    (columnsFileOutputs "out" ',' ["a"] ("in/f.csv", ["\"a\",b\n", "1,2\n"])).map
      (fun outs => outs.map (fun f => f.2.getD 0 "")) = Except.ok ["a,b\r\n"] ∧
    ("a,b\r\n" : String) ≠ "\"a\",b\n" := by
  exact ⟨rfl, by decide⟩

/-- C3 (amended): every output of the shuffle, fixed-size and equal-count
stages begins with the source file's header record byte-for-byte; every
output of the column partitioner begins with the csv re-serialization of
the parsed header fields, which need not be byte-identical to the source
header record. -/
theorem headerPropagation (h : String) (data : List String) (t k shuffles : Nat)
    (perm : Nat → Nat → List Nat) (outdir : String) (delim : Char)
    (col_list : List String) (p : String) (outs : List (String × List String))
    (hcols : columnsFileOutputs outdir delim col_list (p, h :: data) = Except.ok outs) :
    (∀ out ∈ split_by_rows_content (h :: data) t, out.getD 0 "" = h) ∧
    (∀ out ∈ split_by_equal_content (h :: data) k, out.getD 0 "" = h) ∧
    (∀ out ∈ shuffleOutputs (h :: data) shuffles perm, out.getD 0 "" = h) ∧
    (∀ f ∈ outs, f.2.getD 0 "" =
      csvWriteLine delim (csvParseLine delim (stripNewline h))) := by
  refine ⟨?_, ?_, ?_, ?_⟩
  · intro out hout
    simp only [split_by_rows_content, List.mem_map] at hout
    obtain ⟨c, _, rfl⟩ := hout
    rfl
  · intro out hout
    simp only [split_by_equal_content, List.mem_map, List.mem_range] at hout
    obtain ⟨i, _, rfl⟩ := hout
    rfl
  · intro out hout
    simp only [shuffleOutputs, List.mem_map, List.mem_range] at hout
    obtain ⟨i, _, rfl⟩ := hout
    rfl
  · intro f hf
    simp only [columnsFileOutputs] at hcols
    cases hrun : split_by_columns_run (csvParseLine delim (stripNewline h)) col_list
        (data.map (fun r => csvParseLine delim (stripNewline r))) with
    | error e =>
      rw [hrun] at hcols
      exact absurd hcols (by simp)
    | ok gs =>
      rw [hrun] at hcols
      injection hcols with houts
      subst houts
      simp only [List.mem_map] at hf
      obtain ⟨g, _, rfl⟩ := hf
      rfl

/-- C3 witness: a concrete two-record file through the amended theorem. -/
theorem headerPropagationWitness :
    (columnsFileOutputs "out" ',' ["a"] ("in/f.csv", ["a,b\n", "1,2\n"]) =
      Except.ok [("out/a_1", ["a,b\r\n", "1,2\r\n"])]) ∧
    (∀ out ∈ split_by_rows_content ["a,b\n", "1,2\n"] 1, out.getD 0 "" = "a,b\n") ∧
    (∀ f ∈ [("out/a_1", ["a,b\r\n", "1,2\r\n"])],
      f.2.getD 0 "" = csvWriteLine ',' (csvParseLine ',' (stripNewline "a,b\n"))) := by
  have hc : columnsFileOutputs "out" ',' ["a"] ("in/f.csv", ["a,b\n", "1,2\n"]) =
      Except.ok [("out/a_1", ["a,b\r\n", "1,2\r\n"])] := rfl
  have hthm := headerPropagation "a,b\n" ["1,2\n"] 1 1 1 (fun _ n => List.range n)
    "out" ',' ["a"] "in/f.csv" [("out/a_1", ["a,b\r\n", "1,2\r\n"])] hc
  exact ⟨hc, hthm.1, hthm.2.2.2⟩

/-- C9: a key column absent from the header makes the partitioner fail on
the first data row — the dict lookup raises `KeyError` — and the error
does not depend on the remaining rows, so nothing beyond the first row is
scanned. -/
theorem missingColumnFailsFast (fieldnames col_list : List String) (col : String)
    (r : List String) (rest rest2 : List (List String))
    (hc : col ∈ col_list) (hf : col ∉ fieldnames) :
    (∃ e, split_by_columns_run fieldnames col_list (r :: rest) = Except.error e) ∧
    split_by_columns_run fieldnames col_list (r :: rest) =
      split_by_columns_run fieldnames col_list (r :: rest2) ∧
    (mainModel (InputSpec.file "in/d.csv" ["a\n", "1\n"]) "out" ',' ["b"] 0 2 0
      (fun _ n => List.range n)) = Except.error ("KeyError: " ++ "b") := by
  obtain ⟨e, he⟩ := rowKey_error fieldnames col_list r col hc hf
  refine ⟨⟨e, by simp only [split_by_columns_run, sbcGroups, he]⟩, ?_, rfl⟩
  simp only [split_by_columns_run, sbcGroups, he]

/-- C9 witness: requesting column b of a file whose header has only a. -/
theorem missingColumnFailsFastWitness :
    (("b" : String) ∈ (["b"] : List String) ∧ ("b" : String) ∉ (["a"] : List String)) ∧
    (∃ e, split_by_columns_run ["a"] ["b"] [["1"], ["2"]] = Except.error e) := by
  refine ⟨⟨by decide, by decide⟩, ?_⟩
  exact (missingColumnFailsFast ["a"] ["b"] "b" ["1"] [["2"]] []
    (by decide) (by decide)).1

/-- C1: the pipeline deletes or overwrites user-supplied input files.
With a directory input containing exactly one matching file,
`combine_files` returns the user's own file yet `main` still clears
`is_original`, so the next stage removes the user's file; and with a
single-file input and shuffle count 1, the shuffle stage renames its
output onto the user's file, overwriting it. -/
theorem userFileDeletedInPipeline :
    ((mainModel (InputSpec.dir [("in/data.csv", ["h\n", "r1\n", "r2\n", "r3\n"])])
        "out" ',' [] 0 2 0 (fun _ n => List.range n)).map PipeState.removed =
      Except.ok ["in/data.csv"]) ∧
    ((mainModel (InputSpec.file "in/data.csv" ["h\n", "a\n", "b\n"])
        "out" ',' [] 1 0 0 (fun _ n => List.range n)).map PipeState.overwritten =
      Except.ok ["in/data.csv"]) := by
  exact ⟨rfl, rfl⟩

/-- C7: with shuffle count 1 the stage writes one output
(`out/data_shuffle1`, holding the header plus a permutation of the data
rows), then renames it onto the source path; the file list handed to the
next stage still names `out/data_shuffle1`, which the rename just removed
— it does not refer to the surviving output at the source path. -/
theorem shuffleOnceStaleFileList :
    ((mainModel (InputSpec.file "in/data.csv"
        ["h\n", "a\n", "b\n", "c\n", "d\n", "e\n"])
        "out" ',' [] 1 0 0 (fun _ n => List.range n)).map
      (fun st => (st.files, st.renames, st.overwritten)) =
      Except.ok ([("out/data_shuffle1", ["h\n", "a\n", "b\n", "c\n", "d\n", "e\n"])],
        [("out/data_shuffle1", "in/data.csv")], ["in/data.csv"])) ∧
    ("out/data_shuffle1" : String) ≠ "in/data.csv" := by
  exact ⟨rfl, by decide⟩

/-- C8: the seek-based rewrite (`shuffle_file2`) does not reproduce the
in-memory strategy even under the identity permutation: its offset list
holds the position after every newline — the header start (offset 0) is
absent and the end-of-file position is present — so the output lacks the
header record: the file `h, a, b` rewrites to `a, b` while the buffering
strategy writes `h, a, b`. -/
theorem seekShuffleOmitsHeader :
    line_indices "h\na\nb\n" = [2, 4, 6] ∧
    shuffle_file2_iteration "h\na\nb\n" (List.range 3) = "a\nb\n" ∧
    fileText (shuffleIteration ["h\n", "a\n", "b\n"] (List.range 2)) = "h\na\nb\n" ∧
    shuffle_file2_iteration "h\na\nb\n" (List.range 3) ≠
      fileText (shuffleIteration ["h\n", "a\n", "b\n"] (List.range 2)) := by
  exact ⟨rfl, rfl, rfl, by decide⟩

end Chopper
